import Mathlib

/-!
# Verification of `resolveHref` (shared/lib/router/utils/resolve-href.ts)

A shallow embedding of the router's href-resolution helper.  Strings are
modelled as `List Char` internally (`Chars`), with `String` at the interface.
The function `resolveHref` itself is translated line by line from
`src/packages/next/src/shared/lib/router/utils/resolve-href.ts`; the leaf
collaborators it imports (`formatWithValidation`, `isLocalURL`,
`isDynamicRoute`, `interpolateAs`, `normalizeRepeatedSlashes`,
`normalizePathTrailingSlash`, `searchParamsToUrlQuery`, `omit`) and the
platform `URL` constructor are not part of the excerpt and are modelled from
the specification's interface contracts (each such definition carries a
`Modelled from the spec:` doc comment).

Since Lean functions are total, the source's `try`/`catch` blocks are
embedded by making the fallible operation (`URL` construction) return an
`Option`, with the `catch` branch taken on `none`; "no exception propagates"
is reflected by `resolveHref` being a total function whose `none` branches
return the degraded values the source's `catch` blocks return.
-/

abbrev Chars := List Char

/-- ASCII letter test, as in the source's `[a-zA-Z]` character class. -/
def isAlphaChar (c : Char) : Bool :=
  ('a' ≤ c && c ≤ 'z') || ('A' ≤ c && c ≤ 'Z')

/-- The source's anchored match `urlAsString.match(/^[a-zA-Z]{1,}:\/\//)`:
returns the matched scheme prefix (letters followed by `://`) and the
remainder, or `none` when the string has no such prefix. -/
def protoSplit (l : Chars) : Option (Chars × Chars) :=
  let letters := l.takeWhile isAlphaChar
  let rest := l.dropWhile isAlphaChar
  if letters.isEmpty then none
  else if rest.take 3 = [':', '/', '/'] then
    some (letters ++ [':', '/', '/'], rest.drop 3)
  else none

/-- The source's `urlAsStringNoProto`: the input with the matched scheme prefix stripped. -/
def noProtoOf (l : Chars) : Chars :=
  match protoSplit l with
  | some pr => pr.2
  | none => l

/-- The matched scheme prefix itself (empty when there is none), used for
re-attachment after the repeated-slash repair. -/
def protoStrOf (l : Chars) : Chars :=
  match protoSplit l with
  | some pr => pr.1
  | none => []

/-- The source's `urlParts[0]`: the portion of the string before the first `?`. -/
def pathPartL (l : Chars) : Chars := l.takeWhile (fun c => c ≠ '?')

/-- Everything from the first `?` on (empty when there is no `?`). -/
def queryRestL (l : Chars) : Chars := l.dropWhile (fun c => c ≠ '?')

/-- Adjacent repeated forward slashes, the `\/\/` half of the source's
`/(\/\/|\\)/` test. -/
def hasDoubleSlash : Chars → Bool
  | [] => false
  | [_] => false
  | a :: b :: r => (a = '/' && b = '/') || hasDoubleSlash (b :: r)

/-- The source's `/(\/\/|\\)/` test: a repeated forward slash or a backslash
occurs somewhere in the string. -/
def isDirtyL (l : Chars) : Bool := hasDoubleSlash l || l.contains '\\'

/-- The source's line 44 test `(urlParts[0] || '').match(/(\/\/|\\)/)`:
the repeated-separator test applied to the portion before the first `?`. -/
def urlDirty (l : Chars) : Bool := isDirtyL (pathPartL l)

/-- Backslash-to-slash conversion followed by collapsing runs of slashes. -/
def collapseSlashes : Chars → Chars
  | [] => []
  | c :: rest =>
    let c2 := if c = '\\' then '/' else c
    match collapseSlashes rest with
    | [] => [c2]
    | d :: ds => if c2 = '/' && d = '/' then d :: ds else c2 :: d :: ds

/-- Modelled from the spec: `collapseRepeatedSeparators(path) -> path` —
"rewrite the path-only portion with repeated slashes collapsed", keeping the
query-string portion (from the first `?` on) untouched. -/
def normalizeRepeatedSlashes (l : Chars) : Chars :=
  collapseSlashes (pathPartL l) ++ queryRestL l

/-- Lines 37-50 of the source: strip the scheme prefix, test the portion
before the first `?` for repeated separators, and if found collapse them and
re-attach the scheme prefix; otherwise the string is unmodified. -/
def repairedChars (l : Chars) : Chars :=
  if urlDirty (noProtoOf l) then protoStrOf l ++ normalizeRepeatedSlashes (noProtoOf l)
  else l

/-- Modelled from the spec: `isLocalTarget(str) -> bool` — "true iff the
string refers to a resource the router itself can navigate to (same-origin,
not a protocol the router doesn't own)".  A target that names a protocol
(leading letters followed by `:`) is foreign; protocol-free targets are
router-local. -/
def isLocalURL (l : Chars) : Bool :=
  let letters := l.takeWhile isAlphaChar
  letters.isEmpty || (l.dropWhile isAlphaChar).head? != some ':'

/-- The parsed-URL record: the components of a WHATWG `URL` value that the
source reads (`origin`, `pathname`, `searchParams`/`search`, `hash`, `href`).
`search` and `hash` are `none` when the component is absent — a URL with an
empty (but present) query serializes with a bare `?`, which `some []`
captures and `none` does not. -/
structure URLRec where
  origin : Chars
  pathname : Chars
  search : Option Chars
  hash : Option Chars
deriving DecidableEq, Repr

/-- The search component as it appears in `href` (`?q` or empty). -/
def searchHref (u : URLRec) : Chars :=
  match u.search with
  | none => []
  | some q => '?' :: q

/-- The hash component as it appears in `href` (`#h` or empty). -/
def hashHref (u : URLRec) : Chars :=
  match u.hash with
  | none => []
  | some h => '#' :: h

/-- The `url.hash` getter semantics: empty when the fragment is absent or empty,
otherwise `#` followed by the fragment. -/
def hashGetter (u : URLRec) : Chars :=
  match u.hash with
  | none => []
  | some [] => []
  | some h => '#' :: h

/-- The `href` with the origin removed: `url.href.slice(url.origin.length)`. -/
def hrefNoOrigin (u : URLRec) : Chars :=
  u.pathname ++ searchHref u ++ hashHref u

/-- The full `url.href` serialization. -/
def URLRec.href (u : URLRec) : Chars :=
  u.origin ++ hrefNoOrigin u

/-- Path segments of a `/`-prefixed path (split on `/` after the leading
slash). -/
def segsOf (p : Chars) : List Chars :=
  match p with
  | '/' :: r => r.splitOn '/'
  | _ => p.splitOn '/'

/-- All but the last segment of a base path: the directory the base URL's
path provides for relative-path resolution. -/
def dirSegs (p : Chars) : List Chars := (segsOf p).dropLast

/-- WHATWG path-state dot-segment handling: `.` segments vanish, `..`
segments pop, and a trailing dot segment leaves a trailing slash. -/
def normSegsAux : List Chars → List Chars → List Chars
  | acc, [] => acc
  | acc, [s] =>
    if s = ['.'] then acc ++ [[]]
    else if s = ['.', '.'] then acc.dropLast ++ [[]]
    else acc ++ [s]
  | acc, s :: rest =>
    if s = ['.'] then normSegsAux acc rest
    else if s = ['.', '.'] then normSegsAux acc.dropLast rest
    else normSegsAux (acc ++ [s]) rest

/-- Serialize path segments back into a `/`-prefixed path. -/
def renderPath (segs : List Chars) : Chars :=
  '/' :: List.intercalate ['/'] segs

/-- In special URLs a backslash acts as a path separator. -/
def mapSlash (l : Chars) : Chars :=
  l.map (fun c => if c = '\\' then '/' else c)

def isSlashC (c : Char) : Bool := c = '/' || c = '\\'

/-- Characters that terminate the authority (host) component. -/
def authDelim (c : Char) : Bool := c = '/' || c = '\\' || c = '?' || c = '#'

/-- The string starts with two slash-like characters (authority follows). -/
def twoSlashes : Chars → Bool
  | a :: b :: _ => isSlashC a && isSlashC b
  | _ => false

/-- Split `s` into path / query / fragment (fragment from the first `#`,
query from the first `?` before that) and build the record, resolving the
path against `dirSegs` when it is relative. -/
def parsePQH (origin : Chars) (s : Chars) (dir : List Chars) : URLRec :=
  let pre := s.takeWhile (fun c => c ≠ '#')
  let frag :=
    match s.dropWhile (fun c => c ≠ '#') with
    | [] => none
    | _ :: t => some t
  let rawPath := pre.takeWhile (fun c => c ≠ '?')
  let query :=
    match pre.dropWhile (fun c => c ≠ '?') with
    | [] => none
    | _ :: t => some t
  let path := mapSlash rawPath
  let segs :=
    match path with
    | '/' :: r => normSegsAux [] (r.splitOn '/')
    | _ => normSegsAux [] (dir ++ path.splitOn '/')
  { origin := origin, pathname := renderPath segs, search := query, hash := frag }

/-- Modelled from the spec: "standard relative-URL resolution" of the `URL`
constructor (`new URL(input, base)`), WHATWG-style, for the grammar this
component exercises.  Returns `none` on construction failure (a URL that
names an authority but leaves the host empty — the source's comment gives
`//` as such a value). -/
def parseURL (input : Chars) (base : URLRec) : Option URLRec :=
  match protoSplit input with
  | some (proto, rest) =>
    let auth := rest.takeWhile (fun c => !(authDelim c))
    if auth.isEmpty then none
    else some (parsePQH (proto ++ auth) (rest.drop auth.length) [])
  | none =>
    if twoSlashes input then
      let rest := input.dropWhile isSlashC
      let auth := rest.takeWhile (fun c => !(authDelim c))
      if auth.isEmpty then none
      else some (parsePQH (['h', 't', 't', 'p', ':', '/', '/'] ++ auth) (rest.drop auth.length) [])
    else
      match input with
      | [] => some { base with hash := none }
      | '?' :: _ =>
        let pre := input.takeWhile (fun c => c ≠ '#')
        let frag :=
          match input.dropWhile (fun c => c ≠ '#') with
          | [] => none
          | _ :: t => some t
        some { origin := base.origin, pathname := base.pathname,
               search := some (pre.drop 1), hash := frag }
      | '#' :: t => some { base with hash := some t }
      | c :: _ =>
        if isSlashC c then some (parsePQH base.origin input [])
        else some (parsePQH base.origin input (dirSegs base.pathname))

/-- One query pair `k=v` (or bare `k`). -/
def queryPair (kv : Chars) : Option (Chars × Chars) :=
  if kv.isEmpty then none
  else
    let k := kv.takeWhile (fun c => c ≠ '=')
    let rest := kv.dropWhile (fun c => c ≠ '=')
    some (k, match rest with | [] => [] | _ :: t => t)

/-- Modelled from the spec: "convert query parameters to a key/value
mapping" (`searchParamsToUrlQuery(finalUrl.searchParams)`): split the search
string on `&`, one pair per nonempty chunk. -/
def searchParamsToUrlQuery (s : Option Chars) : List (Chars × Chars) :=
  match s with
  | none => []
  | some q => (q.splitOn '&').filterMap queryPair

/-- Modelled from the spec: the parameters consumed by the substitution are
excluded from the "as" string's query component (`omit(query, params)`). -/
def omitKeys (q : List (Chars × Chars)) (keys : List Chars) : List (Chars × Chars) :=
  q.filter (fun p => !(keys.contains p.1))

/-- First value bound to key `k` in the query mapping. -/
def lookupQ (q : List (Chars × Chars)) (k : Chars) : Option Chars :=
  (q.find? (fun p => p.1 == k)).map (fun p => p.2)

/-- Serialize a query mapping as `k=v&k2=v2`. -/
def formatQueryPairs (q : List (Chars × Chars)) : Chars :=
  List.intercalate ['&'] (q.map (fun p => p.1 ++ '=' :: p.2))

/-- Modelled from the spec: `formatTarget(structured) -> string` —
deterministic serialization of a structured navigation target
`{pathname, query, hash}` into a URL string (`formatWithValidation`). -/
def formatWithValidation (pathname : Chars) (query : List (Chars × Chars)) (hash : Chars) : Chars :=
  pathname ++ (if query.isEmpty then [] else '?' :: formatQueryPairs query) ++ hash

/-- A bracketed placeholder segment such as `[id]`. -/
def isDynamicSegment (s : Chars) : Bool :=
  match s with
  | '[' :: rest => rest.length ≥ 2 && rest.getLast? == some ']'
  | _ => false

/-- Modelled from the spec: `isDynamicRoutePattern(path) -> bool` — true iff
the path contains parameter placeholders (bracketed segments). -/
def isDynamicRoute (p : Chars) : Bool := (segsOf p).any isDynamicSegment

/-- The placeholder name of a bracketed segment (`[id]` yields `id`). -/
def segParamName (s : Chars) : Option Chars :=
  if isDynamicSegment s then some ((s.drop 1).dropLast) else none

/-- Modelled from the spec:
`interpolate(pattern, concretePath, queryMap) -> {result: path|null, consumedParams: set}`
— substitutes placeholders with matching query values and reports which query
keys were consumed; `result` is `none` when some placeholder finds no match.
At this call site pattern and concrete path coincide, so the values are drawn
from the query mapping. -/
def interpolateAs (route : Chars) (query : List (Chars × Chars)) :
    Option Chars × List Chars :=
  let segs := segsOf route
  let params := segs.filterMap segParamName
  let result :=
    if params.all (fun p => (lookupQ query p).isSome) then
      some ('/' :: List.intercalate ['/'] (segs.map (fun s =>
        match segParamName s with
        | some p => (lookupQ query p).getD s
        | none => s)))
    else none
  (result, params)

/-- Modelled from the spec: `normalizeTrailingSlash(path) -> path` — the
site-wide trailing-slash convention; with the default always-absent policy a
trailing slash is removed, except on the root path. -/
def normalizePathTrailingSlash (p : Chars) : Chars :=
  if p.getLast? == some '/' then (if p.length == 1 then p else p.dropLast)
  else p

/-- The router state this component reads: the matched route pattern
(`pathname`) and the literal browser-visible path (`asPath`). -/
structure NextRouter where
  pathname : String
  asPath : String

/-- A navigation target: a plain string, or a structured
`{pathname, query, hash}` object. -/
inductive Url where
  | str (s : String)
  | obj (pathname : String) (query : List (String × String)) (hash : String)

/-- Line 33: `typeof href === 'string' ? href : formatWithValidation(href)`. -/
def toUrlChars : Url → Chars
  | .str s => s.toList
  | .obj p q h =>
    formatWithValidation p.toList (q.map (fun x => (x.1.toList, x.2.toList))) h.toList

/-- The fixed placeholder authority `http://n` as a parsed base. -/
def dummyBase : URLRec :=
  { origin := ['h', 't', 't', 'p', ':', '/', '/', 'n'], pathname := ['/'],
    search := none, hash := none }

/-- Lines 57-65: the resolution base — `asPath` for fragment-only targets,
`pathname` otherwise, constructed against `http://n`; on construction
failure the base falls back to `/` (`new URL('/', 'http://n')`, which is
`dummyBase` itself). -/
def baseOf (r : NextRouter) (url : Chars) : URLRec :=
  match parseURL (if url.head? == some '#' then r.asPath.toList else r.pathname.toList)
      dummyBase with
  | some b => b
  | none => dummyBase

/-- Line 68: `new URL(urlAsString, base)` for the (repaired) target string. -/
def finalUrlOf (r : NextRouter) (url : Chars) : Option URLRec :=
  parseURL url (baseOf r url)

/-- The two shapes the source returns: a bare string (`resolveAs` false) or
an array (`resolveAs` true, one or two elements). -/
inductive ResolveResult where
  | str (s : String)
  | list (l : List String)
deriving DecidableEq, Repr

/-- The first element of either result shape. -/
def ResolveResult.firstStr : ResolveResult → Option String
  | .str s => some s
  | .list l => l.head?

def mkStr (l : Chars) : String := String.mk l

/-- Lines 72-92: the `interpolatedAs` variable.  The source's condition is
`isDynamicRoute(finalUrl.pathname) && finalUrl.searchParams && resolveAs`;
`finalUrl.searchParams` is an always-present object and hence always truthy,
so it imposes no condition. -/
def interpolatedAsOf (f : URLRec) (resolveAs : Bool) : Chars :=
  if isDynamicRoute f.pathname && resolveAs then
    let query := searchParamsToUrlQuery f.search
    match interpolateAs f.pathname query with
    | (some res, params) => formatWithValidation res (omitKeys query params) (hashGetter f)
    | (none, _) => []
  else []

/-- Lines 94-98: `finalUrl.origin === base.origin ?
finalUrl.href.slice(finalUrl.origin.length) : finalUrl.href`. -/
def resolvedHrefOf (base : URLRec) (f : URLRec) : Chars :=
  if f.origin == base.origin then hrefNoOrigin f else f.href

/-- The body of `resolveHref`, translated line by line from the source.  The
second component counts `console.error` diagnostics emitted during the call
(the source emits exactly one, in the repeated-slash repair branch). -/
def resolveHrefCore (router : NextRouter) (href : Url) (resolveAs : Bool) :
    ResolveResult × Nat :=
  let url0 := toUrlChars href
  let d := if urlDirty (noProtoOf url0) then 1 else 0
  let urlAsString := repairedChars url0
  let result :=
    if !(isLocalURL urlAsString) then
      (if resolveAs then .list [mkStr urlAsString] else .str (mkStr urlAsString))
    else
      match finalUrlOf router urlAsString with
      | none =>
        (if resolveAs then .list [mkStr urlAsString] else .str (mkStr urlAsString))
      | some finalUrl0 =>
        let finalUrl := { finalUrl0 with
                          pathname := normalizePathTrailingSlash finalUrl0.pathname }
        let interpolatedAs := interpolatedAsOf finalUrl resolveAs
        let resolvedHref := resolvedHrefOf (baseOf router urlAsString) finalUrl
        (if resolveAs then
            .list [mkStr resolvedHref,
                   mkStr (if interpolatedAs.isEmpty then resolvedHref else interpolatedAs)]
          else .str (mkStr resolvedHref))
  (result, d)

/-- The function `resolveHref` proper: the value returned to the caller. -/
def resolveHref (r : NextRouter) (u : Url) (resolveAs : Bool) : ResolveResult :=
  (resolveHrefCore r u resolveAs).1

/-- The number of `console.error` diagnostics the call emits. -/
def resolveDiagnostics (r : NextRouter) (u : Url) (resolveAs : Bool) : Nat :=
  (resolveHrefCore r u resolveAs).2

/-- An already-canonical local href, described by the components it
serializes from: the path is absolute (`/`-headed), reparses to itself
(dot-segment handling is a fixed point), is trailing-slash-normalized and
free of `?`/`#`, the query carries no `#`, and the serialized string's
pre-query portion contains no repeated slashes or backslashes.  These are
exactly the properties the resolver's own outputs have when the router state
is separator-clean. -/
def canonicalURL (U : URLRec) : Bool :=
  (U.pathname.head? == some '/') &&
  (renderPath (normSegsAux [] ((U.pathname.drop 1).splitOn '/')) == U.pathname) &&
  (normalizePathTrailingSlash U.pathname == U.pathname) &&
  (!(U.pathname.contains '#')) &&
  (!(U.pathname.contains '?')) &&
  (match U.search with
   | none => true
   | some q => !(q.contains '#')) &&
  (!(urlDirty (hrefNoOrigin U)))

/-! ## Helper lemmas about the repeated-separator repair -/

theorem hasDoubleSlash_cons2 (a b : Char) (r : Chars) :
    hasDoubleSlash (a :: b :: r) = ((a = '/' && b = '/') || hasDoubleSlash (b :: r)) := rfl

theorem collapseSlashes_clean (l : Chars) :
    hasDoubleSlash (collapseSlashes l) = false ∧ '\\' ∉ collapseSlashes l := by
  induction l with
  | nil => exact ⟨rfl, by simp [collapseSlashes]⟩
  | cons c rest ih =>
    have hc2 : (if c = '\\' then '/' else c) ≠ '\\' := by
      by_cases hc : c = '\\' <;> simp [hc]
    cases hcr : collapseSlashes rest with
    | nil =>
      constructor
      · simp [collapseSlashes, hcr, hasDoubleSlash]
      · simp only [collapseSlashes, hcr, List.mem_singleton]
        exact fun h => hc2 h.symm
    | cons d ds =>
      rw [hcr] at ih
      by_cases hb : ((if c = '\\' then '/' else c) = '/' && d = '/') = true
      · have hcol : collapseSlashes (c :: rest) = d :: ds := by
          simp only [collapseSlashes, hcr]
          rw [if_pos hb]
        rw [hcol]
        exact ih
      · have hcol : collapseSlashes (c :: rest) = (if c = '\\' then '/' else c) :: d :: ds := by
          simp only [collapseSlashes, hcr]
          rw [if_neg hb]
        have hbf : ((if c = '\\' then '/' else c) = '/' && d = '/') = false :=
          Bool.eq_false_iff.mpr hb
        rw [hcol]
        constructor
        · rw [hasDoubleSlash_cons2, hbf]
          simpa using ih.1
        · intro hmem
          rcases List.mem_cons.mp hmem with h | h
          · exact hc2 h.symm
          · exact ih.2 h

theorem hasDoubleSlash_append (a x : Chars) (h : hasDoubleSlash x = true) :
    hasDoubleSlash (a ++ x) = true := by
  induction a with
  | nil => simpa using h
  | cons c t ih =>
    cases he : t ++ x with
    | nil =>
      rcases List.append_eq_nil.mp he with ⟨_, hx⟩
      rw [hx] at h
      simp [hasDoubleSlash] at h
    | cons d r =>
      have : hasDoubleSlash (d :: r) = true := he ▸ ih
      rw [List.cons_append, he, hasDoubleSlash_cons2, this]
      simp

theorem mem_collapseSlashes {c : Char} {l : Chars} (h : c ∈ collapseSlashes l) :
    c ∈ l ∨ c = '/' := by
  induction l with
  | nil => simp [collapseSlashes] at h
  | cons a rest ih =>
    have ha2 : (if a = '\\' then '/' else a) = a ∨ (if a = '\\' then '/' else a) = '/' := by
      by_cases hc : a = '\\' <;> simp [hc]
    cases hcr : collapseSlashes rest with
    | nil =>
      simp only [collapseSlashes, hcr, List.mem_singleton] at h
      rcases ha2 with h2 | h2
      · exact Or.inl (by rw [h, h2]; exact List.mem_cons_self _ _)
      · exact Or.inr (by rw [h, h2])
    | cons d ds =>
      simp only [collapseSlashes, hcr] at h
      by_cases hb : ((if a = '\\' then '/' else a) = '/' && d = '/') = true
      · rw [if_pos hb] at h
        rcases ih (hcr ▸ h) with h3 | h3
        · exact Or.inl (List.mem_cons_of_mem _ h3)
        · exact Or.inr h3
      · rw [if_neg hb] at h
        rcases List.mem_cons.mp h with h3 | h3
        · rcases ha2 with h2 | h2
          · exact Or.inl (by rw [h3, h2]; exact List.mem_cons_self _ _)
          · exact Or.inr (by rw [h3, h2])
        · rcases ih (hcr ▸ h3) with h4 | h4
          · exact Or.inl (List.mem_cons_of_mem _ h4)
          · exact Or.inr h4

theorem queryRestL_cases (l : Chars) : queryRestL l = [] ∨ ∃ t, queryRestL l = '?' :: t := by
  induction l with
  | nil => exact Or.inl rfl
  | cons c r ih =>
    by_cases hc : c = '?'
    · exact Or.inr ⟨r, by simp [queryRestL, List.dropWhile_cons, hc]⟩
    · simpa [queryRestL, List.dropWhile_cons, hc] using ih

theorem urlDirty_normalizeRepeatedSlashes (m : Chars) :
    urlDirty (normalizeRepeatedSlashes m) = false := by
  have hall : ∀ c ∈ collapseSlashes (pathPartL m), (fun c => decide (c ≠ '?')) c = true := by
    intro c hc
    rcases mem_collapseSlashes hc with h | h
    · have h2 : c ∈ List.takeWhile (fun c => decide (c ≠ '?')) m := h
      exact @List.mem_takeWhile_imp Char (fun c => decide (c ≠ '?')) m c h2
    · simp [h]
  have hq : (queryRestL m).takeWhile (fun c => decide (c ≠ '?')) = [] := by
    rcases queryRestL_cases m with h | ⟨t, h⟩
    · rw [h]; rfl
    · rw [h]; simp [List.takeWhile_cons]
  have hkey : pathPartL (normalizeRepeatedSlashes m) = collapseSlashes (pathPartL m) := by
    show List.takeWhile (fun c => decide (c ≠ '?'))
        (collapseSlashes (pathPartL m) ++ queryRestL m) = _
    rw [List.takeWhile_append_of_pos hall, hq, List.append_nil]
  unfold urlDirty
  rw [hkey]
  have h1 := (collapseSlashes_clean (pathPartL m)).1
  have h2 := (collapseSlashes_clean (pathPartL m)).2
  simp [isDirtyL, h1, h2]

theorem protoSplit_eq_some {l : Chars} {p r : Chars} (h : protoSplit l = some (p, r)) :
    l.takeWhile isAlphaChar ≠ [] ∧
    p = l.takeWhile isAlphaChar ++ [':', '/', '/'] ∧
    l.dropWhile isAlphaChar = ':' :: '/' :: '/' :: r := by
  simp only [protoSplit] at h
  by_cases he : (l.takeWhile isAlphaChar).isEmpty
  · rw [if_pos he] at h; exact absurd h (by simp)
  · rw [if_neg he] at h
    by_cases ht : (l.dropWhile isAlphaChar).take 3 = [':', '/', '/']
    · rw [if_pos ht] at h
      rw [Option.some.injEq, Prod.mk.injEq] at h
      obtain ⟨hp, hr⟩ := h
      refine ⟨by simpa [List.isEmpty_iff] using he, hp.symm, ?_⟩
      conv_lhs => rw [← List.take_append_drop 3 (l.dropWhile isAlphaChar)]
      rw [ht, hr]
      rfl
    · rw [if_neg ht] at h; exact absurd h (by simp)

theorem protoSplit_append_proto (letters x : Chars) (hl : letters ≠ [])
    (ha : ∀ c ∈ letters, isAlphaChar c = true) :
    protoSplit (letters ++ ':' :: '/' :: '/' :: x) = some (letters ++ [':', '/', '/'], x) := by
  have hcolon : isAlphaChar ':' = false := by decide
  have htw : (letters ++ ':' :: '/' :: '/' :: x).takeWhile isAlphaChar = letters := by
    rw [List.takeWhile_append_of_pos ha]
    simp [List.takeWhile_cons, hcolon]
  have hdw : (letters ++ ':' :: '/' :: '/' :: x).dropWhile isAlphaChar
      = ':' :: '/' :: '/' :: x := by
    rw [List.dropWhile_append_of_pos ha]
    simp [List.dropWhile_cons, hcolon]
  simp only [protoSplit, htw, hdw]
  rw [if_neg (by simpa [List.isEmpty_iff] using hl)]
  rw [if_pos (by rfl)]
  rfl

theorem protoSplit_eq_none_of_clean {m : Chars} (h : urlDirty m = false) :
    protoSplit m = none := by
  cases hp : protoSplit m with
  | none => rfl
  | some pr =>
    obtain ⟨p, r⟩ := pr
    obtain ⟨hne, hp2, hd⟩ := protoSplit_eq_some hp
    exfalso
    have hm : m = m.takeWhile isAlphaChar ++ ':' :: '/' :: '/' :: r := by
      conv_lhs => rw [← List.takeWhile_append_dropWhile isAlphaChar m]
      rw [hd]
    have hall : ∀ c ∈ m.takeWhile isAlphaChar ++ [':'],
        (fun c => decide (c ≠ '?')) c = true := by
      intro c hc
      rcases List.mem_append.mp hc with h1 | h1
      · have h2 := List.mem_takeWhile_imp h1
        simp only [decide_eq_true_eq]
        intro hq; rw [hq] at h2; exact absurd h2 (by decide)
      · simp only [List.mem_singleton] at h1
        simp [h1]
    have hdirty : urlDirty m = true := by
      unfold urlDirty pathPartL
      conv_lhs => rw [hm]
      have hre : m.takeWhile isAlphaChar ++ ':' :: '/' :: '/' :: r
          = (m.takeWhile isAlphaChar ++ [':']) ++ '/' :: '/' :: r := by simp
      rw [hre, List.takeWhile_append_of_pos hall]
      have htk : ('/' :: '/' :: r).takeWhile (fun c => decide (c ≠ '?'))
          = '/' :: '/' :: r.takeWhile (fun c => decide (c ≠ '?')) := by
        rw [List.takeWhile_cons_of_pos (by decide), List.takeWhile_cons_of_pos (by decide)]
      have hds : hasDoubleSlash ((m.takeWhile isAlphaChar ++ [':'])
          ++ ('/' :: '/' :: r).takeWhile (fun c => decide (c ≠ '?'))) = true := by
        apply hasDoubleSlash_append
        rw [htk, hasDoubleSlash_cons2, Bool.or_eq_true]
        exact Or.inl (by decide)
      unfold isDirtyL
      rw [hds]
      rfl
    rw [h] at hdirty
    exact Bool.false_ne_true hdirty

theorem noProtoOf_eq_of_none {x : Chars} (h : protoSplit x = none) : noProtoOf x = x := by
  unfold noProtoOf; rw [h]

theorem noProtoOf_eq_of_some {x p r : Chars} (h : protoSplit x = some (p, r)) :
    noProtoOf x = r := by
  unfold noProtoOf; rw [h]

theorem protoStrOf_eq_of_none {x : Chars} (h : protoSplit x = none) : protoStrOf x = [] := by
  unfold protoStrOf; rw [h]

theorem protoStrOf_eq_of_some {x p r : Chars} (h : protoSplit x = some (p, r)) :
    protoStrOf x = p := by
  unfold protoStrOf; rw [h]

theorem urlDirty_noProtoOf_repaired {l : Chars} (hd : urlDirty (noProtoOf l) = true) :
    urlDirty (noProtoOf (repairedChars l)) = false := by
  unfold repairedChars
  rw [if_pos hd]
  cases hp : protoSplit l with
  | none =>
    rw [protoStrOf_eq_of_none hp, List.nil_append]
    have hcl := urlDirty_normalizeRepeatedSlashes (noProtoOf l)
    rw [noProtoOf_eq_of_none (protoSplit_eq_none_of_clean hcl)]
    exact hcl
  | some pr =>
    obtain ⟨p, r⟩ := pr
    obtain ⟨hne, hp2, hdw⟩ := protoSplit_eq_some hp
    rw [protoStrOf_eq_of_some hp, hp2, noProtoOf_eq_of_some hp]
    have hassoc : l.takeWhile isAlphaChar ++ [':', '/', '/'] ++ normalizeRepeatedSlashes r
        = l.takeWhile isAlphaChar ++ ':' :: '/' :: '/' :: normalizeRepeatedSlashes r := by
      simp
    rw [hassoc]
    have hall : ∀ c ∈ l.takeWhile isAlphaChar, isAlphaChar c = true :=
      fun c hc => List.mem_takeWhile_imp hc
    rw [noProtoOf_eq_of_some (protoSplit_append_proto _ _ hne hall)]
    exact urlDirty_normalizeRepeatedSlashes r

theorem repairedChars_idem (l : Chars) :
    repairedChars (repairedChars l) = repairedChars l := by
  cases hd : urlDirty (noProtoOf l) with
  | false =>
    have h1 : repairedChars l = l := by simp [repairedChars, hd]
    rw [h1]
    exact h1
  | true =>
    have h2 := urlDirty_noProtoOf_repaired hd
    conv_lhs => rw [repairedChars]
    rw [h2]
    simp

/-! ## Helper lemmas about interpolation and parsed components -/

theorem interpolateAs_fst (route : Chars) (query : List (Chars × Chars)) :
    (interpolateAs route query).1 =
      (if ((segsOf route).filterMap segParamName).all (fun p => (lookupQ query p).isSome) then
        some ('/' :: List.intercalate ['/'] ((segsOf route).map (fun s =>
          match segParamName s with
          | some p => (lookupQ query p).getD s
          | none => s)))
      else none) := rfl

theorem interpolateAs_snd (route : Chars) (query : List (Chars × Chars)) :
    (interpolateAs route query).2 = (segsOf route).filterMap segParamName := rfl

theorem interpolateAs_empty_query {p : Chars} (h : isDynamicRoute p = true) :
    (interpolateAs p []).1 = none := by
  obtain ⟨s, hs, hds⟩ := List.any_eq_true.mp h
  have hname : segParamName s = some ((s.drop 1).dropLast) := by
    unfold segParamName; rw [if_pos hds]
  have hmem : ((s.drop 1).dropLast) ∈ (segsOf p).filterMap segParamName :=
    List.mem_filterMap.mpr ⟨s, hs, hname⟩
  have hall : ((segsOf p).filterMap segParamName).all
      (fun q => (lookupQ [] q).isSome) = false := by
    cases hall2 : ((segsOf p).filterMap segParamName).all
        (fun q => (lookupQ [] q).isSome) with
    | true =>
      have := List.all_eq_true.mp hall2 _ hmem
      simp [lookupQ] at this
    | false => rfl
  rw [interpolateAs_fst, hall]
  simp

theorem interpolateAs_fst_some_ne_nil {p : Chars} {q : List (Chars × Chars)} {res : Chars}
    (h : (interpolateAs p q).1 = some res) : res ≠ [] := by
  rw [interpolateAs_fst] at h
  by_cases hall : ((segsOf p).filterMap segParamName).all (fun r => (lookupQ q r).isSome) = true
  · rw [if_pos hall] at h
    rw [Option.some.injEq] at h
    rw [← h]
    simp
  · rw [if_neg hall] at h
    exact absurd h (by simp)

/-! ## Claim theorems -/

/-- C1: for every navigation target (plain string or structured object) and
every router state, `resolveHref` never propagates an exception: it is a
total function, and when the resolution step (`new URL(urlAsString, base)`)
fails, the call degrades to returning the working input string — the
original input when no repeated-separator repair occurred — bare when
`resolveAs` is false and as a single-element pair when `resolveAs` is
true. -/
theorem resolveHref_parse_failure_degrades (r : NextRouter) (u : Url) (b : Bool)
    (h : finalUrlOf r (repairedChars (toUrlChars u)) = none) :
    resolveHref r u b =
      (if b then ResolveResult.list [mkStr (repairedChars (toUrlChars u))]
       else ResolveResult.str (mkStr (repairedChars (toUrlChars u)))) ∧
    (urlDirty (noProtoOf (toUrlChars u)) = false →
      repairedChars (toUrlChars u) = toUrlChars u) := by
  constructor
  · unfold resolveHref resolveHrefCore
    cases hl : isLocalURL (repairedChars (toUrlChars u)) with
    | false => simp [hl]
    | true => simp [hl, h]
  · intro hc
    simp [repairedChars, hc]

/-- Witness for C1: the concrete target `http://` (scheme with empty host)
makes the URL construction fail, and the call returns the input unchanged
as a single-element pair. -/
theorem resolveHref_parse_failure_degrades_witness :
    finalUrlOf ⟨"/", "/"⟩ (repairedChars (toUrlChars (Url.str ("http://")))) = none ∧
    resolveHref ⟨"/", "/"⟩ (Url.str ("http://")) true
      = ResolveResult.list [mkStr (repairedChars (toUrlChars (Url.str ("http://"))))] := by
  have h : finalUrlOf ⟨"/", "/"⟩ (repairedChars (toUrlChars (Url.str ("http://")))) = none := by
    decide
  refine ⟨h, ?_⟩
  have h2 := (resolveHref_parse_failure_degrades ⟨"/", "/"⟩ (Url.str ("http://")) true h).1
  simpa using h2

/-- C4: a target string that the local-URL test classifies as not local is
returned (possibly repaired, otherwise unchanged): bare when `resolveAs` is
false, wrapped in a one-element pair when `resolveAs` is true, with no
relative resolution performed. -/
theorem resolveHref_external_unchanged (r : NextRouter) (s : String) (b : Bool)
    (h : isLocalURL (repairedChars s.toList) = false) :
    resolveHref r (Url.str s) b =
      (if b then ResolveResult.list [mkStr (repairedChars s.toList)]
       else ResolveResult.str (mkStr (repairedChars s.toList))) := by
  have h2 : isLocalURL (repairedChars s.data) = false := h
  unfold resolveHref resolveHrefCore
  simp [toUrlChars, h2]

/-- Witness for C4: the absolute external URL `https://example.com/x` is
returned unchanged regardless of `resolveAs`. -/
theorem resolveHref_external_unchanged_witness :
    isLocalURL (repairedChars ("https://example.com/x").toList) = false ∧
    resolveHref ⟨"/a", "/a"⟩ (Url.str ("https://example.com/x")) true
      = ResolveResult.list ["https://example.com/x"] ∧
    resolveHref ⟨"/a", "/a"⟩ (Url.str ("https://example.com/x")) false
      = ResolveResult.str ("https://example.com/x") := by
  have h : isLocalURL (repairedChars ("https://example.com/x").toList) = false := by decide
  refine ⟨h, ?_, ?_⟩
  · rw [resolveHref_external_unchanged ⟨"/a", "/a"⟩ ("https://example.com/x") true h]
    decide
  · rw [resolveHref_external_unchanged ⟨"/a", "/a"⟩ ("https://example.com/x") false h]
    decide

theorem lookupQ_omitKeys (q : List (Chars × Chars)) (ps : List Chars) (k : Chars) :
    lookupQ (omitKeys q ps) k = if ps.contains k then none else lookupQ q k := by
  suffices h : lookupQ (omitKeys q ps) k = if k ∈ ps then none else lookupQ q k by
    rw [h]; by_cases hm : k ∈ ps <;> simp [hm]
  induction q with
  | nil => simp [omitKeys, lookupQ]
  | cons p t ih =>
    rw [omitKeys, List.filter_cons]
    by_cases hpm : p.1 ∈ ps
    · rw [if_neg (by simp [hpm])]
      rw [show List.filter (fun p => !ps.contains p.1) t = omitKeys t ps from rfl, ih]
      by_cases hk : p.1 = k
      · subst hk
        simp [hpm]
      · have hb : (p.1 == k) = false := by simp [hk]
        have h2 : lookupQ (p :: t) k = lookupQ t k := by
          simp only [lookupQ, List.find?_cons, hb]
        rw [h2]
    · rw [if_pos (by simp [hpm])]
      by_cases hk : p.1 = k
      · subst hk
        rw [if_neg hpm]
        have hb : (p.1 == p.1) = true := by simp
        simp only [lookupQ, List.find?_cons, hb]
      · have hb : (p.1 == k) = false := by simp [hk]
        have h1 : lookupQ (p :: List.filter (fun p => !ps.contains p.1) t) k
            = lookupQ (List.filter (fun p => !ps.contains p.1) t) k := by
          simp only [lookupQ, List.find?_cons, hb]
        have h2 : lookupQ (p :: t) k = lookupQ t k := by
          simp only [lookupQ, List.find?_cons, hb]
        rw [h1]
        rw [show List.filter (fun p => !ps.contains p.1) t = omitKeys t ps from rfl, ih, h2]

/-- C2: when interpolation succeeds, the query keys consumed by the
substitution are excluded from the "as" string's query mapping while every
other key keeps its value (`lookupQ` on the omitted mapping), and on the
spec's own example `/posts/[id]?id=5&sort=asc` against route `/posts/[id]`
the call returns `as = /posts/5?sort=asc` (id consumed, sort retained) with
`href` keeping the full resolved path and query. -/
theorem resolveHref_interpolation_excludes_consumed :
    (∀ (q : List (Chars × Chars)) (ps : List Chars) (k : Chars),
        lookupQ (omitKeys q ps) k = if ps.contains k then none else lookupQ q k) ∧
    resolveHref ⟨"/posts/[id]", "/posts/5"⟩ (Url.str ("/posts/[id]?id=5&sort=asc")) true
      = ResolveResult.list ["/posts/[id]?id=5&sort=asc", "/posts/5?sort=asc"] := by
  exact ⟨lookupQ_omitKeys, by decide⟩

/-- C5: the resolution base is the router's `asPath` for fragment-only
targets (`#section` against `asPath = /a/b?x=1` resolves to
`/a/b?x=1#section`, not against the route pattern), and a malformed `asPath`
(the empty string, or `//` on which URL construction fails) degrades to the
root path `/` as base without an exception, still resolving the target. -/
theorem resolveHref_fragment_base_and_fallback :
    resolveHref ⟨"/p/[x]", "/a/b?x=1"⟩ (Url.str ("#section")) false
      = ResolveResult.str ("/a/b?x=1#section") ∧
    resolveHref ⟨"/p/[x]", "/a/b?x=1"⟩ (Url.str ("#section")) true
      = ResolveResult.list ["/a/b?x=1#section", "/a/b?x=1#section"] ∧
    resolveHref ⟨"/p", ""⟩ (Url.str ("#section")) false = ResolveResult.str ("/#section") ∧
    parseURL ("//").toList dummyBase = none ∧
    resolveHref ⟨"/p", "//"⟩ (Url.str ("#section")) false = ResolveResult.str ("/#section") := by
  exact ⟨by decide, by decide, by decide, by decide, by decide⟩

/-- C3: whenever the resolved path is not a dynamic route, or the resolved
URL carries no query parameters, no interpolation takes effect: the `as`
value of the pair equals the canonical resolved href (and with `resolveAs`
false the bare canonical href is returned).  Note the source's third guard,
`finalUrl.searchParams`, is an always-truthy object: with an empty query the
interpolation call itself still runs but finds no match, so the observable
result is the same fallback. -/
theorem resolveHref_no_interpolation_as_defaults (r : NextRouter) (u : Url) (U : URLRec)
    (hloc : isLocalURL (repairedChars (toUrlChars u)) = true)
    (hf : finalUrlOf r (repairedChars (toUrlChars u)) = some U)
    (hcond : isDynamicRoute (normalizePathTrailingSlash U.pathname) = false ∨
      searchParamsToUrlQuery U.search = []) :
    resolveHref r u true = ResolveResult.list
      [mkStr (resolvedHrefOf (baseOf r (repairedChars (toUrlChars u)))
        { U with pathname := normalizePathTrailingSlash U.pathname }),
       mkStr (resolvedHrefOf (baseOf r (repairedChars (toUrlChars u)))
        { U with pathname := normalizePathTrailingSlash U.pathname })] ∧
    resolveHref r u false = ResolveResult.str
      (mkStr (resolvedHrefOf (baseOf r (repairedChars (toUrlChars u)))
        { U with pathname := normalizePathTrailingSlash U.pathname })) := by
  have hint : interpolatedAsOf { U with pathname := normalizePathTrailingSlash U.pathname }
      true = [] := by
    unfold interpolatedAsOf
    rcases hcond with hc | hc
    · rw [if_neg (by simp [hc])]
    · by_cases hdyn : isDynamicRoute (normalizePathTrailingSlash U.pathname) = true
      · rw [if_pos (by simp [hdyn])]
        have hq : searchParamsToUrlQuery
            ({ U with pathname := normalizePathTrailingSlash U.pathname } : URLRec).search
            = [] := hc
        rw [hq]
        have hnone := interpolateAs_empty_query hdyn
        cases hi : interpolateAs (normalizePathTrailingSlash U.pathname) [] with
        | mk o ps =>
          rw [hi] at hnone
          simp only at hnone
          subst hnone
          simp [hi]
      · rw [if_neg (by simp [Bool.eq_false_iff.mpr hdyn])]
  constructor
  · unfold resolveHref resolveHrefCore
    simp [hloc, hf, hint]
  · unfold resolveHref resolveHrefCore
    simp [hloc, hf, interpolatedAsOf]

/-- Witness for C3: a non-dynamic local target with a query parameter. -/
theorem resolveHref_no_interpolation_as_defaults_witness :
    isLocalURL (repairedChars (toUrlChars (Url.str ("/x?q=1")))) = true ∧
    finalUrlOf ⟨"/a", "/a"⟩ (repairedChars (toUrlChars (Url.str ("/x?q=1"))))
      = some ⟨("http://n").toList, ("/x").toList, some (("q=1").toList), none⟩ ∧
    resolveHref ⟨"/a", "/a"⟩ (Url.str ("/x?q=1")) true
      = ResolveResult.list ["/x?q=1", "/x?q=1"] ∧
    resolveHref ⟨"/a", "/a"⟩ (Url.str ("/x?q=1")) false = ResolveResult.str ("/x?q=1") := by
  refine ⟨by decide, by decide, ?_, ?_⟩
  · have h := (resolveHref_no_interpolation_as_defaults ⟨"/a", "/a"⟩ (Url.str ("/x?q=1"))
      ⟨("http://n").toList, ("/x").toList, some (("q=1").toList), none⟩
      (by decide) (by decide) (Or.inl (by decide))).1
    rw [h]
    decide
  · have h := (resolveHref_no_interpolation_as_defaults ⟨"/a", "/a"⟩ (Url.str ("/x?q=1"))
      ⟨("http://n").toList, ("/x").toList, some (("q=1").toList), none⟩
      (by decide) (by decide) (Or.inl (by decide))).2
    rw [h]
    decide

/-- C8: for a local target, the value returned with `resolveAs` false equals
the first element of the pair returned with `resolveAs` true (stated, as the
claim does, for local relative targets whose resolved path has no dynamic
segments, though the dynamic-route hypothesis is not even needed: the first
pair element is always the canonical href). -/
theorem resolveHref_false_is_first_of_pair (r : NextRouter) (u : Url)
    (hloc : isLocalURL (repairedChars (toUrlChars u)) = true)
    (_hnd : ∀ U, finalUrlOf r (repairedChars (toUrlChars u)) = some U →
      isDynamicRoute (normalizePathTrailingSlash U.pathname) = false) :
    ∃ s, resolveHref r u false = ResolveResult.str s ∧
      (resolveHref r u true).firstStr = some s := by
  cases hf : finalUrlOf r (repairedChars (toUrlChars u)) with
  | none =>
    refine ⟨mkStr (repairedChars (toUrlChars u)), ?_, ?_⟩ <;>
      simp [resolveHref, resolveHrefCore, hloc, hf, ResolveResult.firstStr]
  | some U =>
    refine ⟨mkStr (resolvedHrefOf (baseOf r (repairedChars (toUrlChars u)))
      { U with pathname := normalizePathTrailingSlash U.pathname }), ?_, ?_⟩ <;>
      simp [resolveHref, resolveHrefCore, hloc, hf, ResolveResult.firstStr]

/-- Witness for C8: the local non-dynamic target `/x?q=1`. -/
theorem resolveHref_false_is_first_of_pair_witness :
    isLocalURL (repairedChars (toUrlChars (Url.str ("/x?q=1")))) = true ∧
    (∃ s, resolveHref ⟨"/a", "/a"⟩ (Url.str ("/x?q=1")) false = ResolveResult.str s ∧
      (resolveHref ⟨"/a", "/a"⟩ (Url.str ("/x?q=1")) true).firstStr = some s) := by
  refine ⟨by decide, ?_⟩
  apply resolveHref_false_is_first_of_pair
  · decide
  · intro U hU
    have he : finalUrlOf ⟨"/a", "/a"⟩ (repairedChars (toUrlChars (Url.str ("/x?q=1"))))
        = some ⟨("http://n").toList, ("/x").toList, some (("q=1").toList), none⟩ := by
      decide
    rw [he] at hU
    have hUe := Option.some.inj hU
    rw [← hUe]
    decide

/-- C6: when the pre-query portion of the (scheme-stripped) target contains
repeated slashes or a backslash, exactly one diagnostic is emitted and the
call behaves exactly as if the repaired string had been passed (so the
repaired string, not the raw input, is what reaches the local-URL
classification and resolution); when the pattern is absent no diagnostic is
emitted and the string is unmodified. -/
theorem resolveHref_repair_and_diagnostics (r : NextRouter) (u : Url) (b : Bool) :
    (urlDirty (noProtoOf (toUrlChars u)) = true →
      resolveDiagnostics r u b = 1 ∧
      resolveHref r u b = resolveHref r (Url.str (mkStr (repairedChars (toUrlChars u)))) b) ∧
    (urlDirty (noProtoOf (toUrlChars u)) = false →
      resolveDiagnostics r u b = 0 ∧ repairedChars (toUrlChars u) = toUrlChars u) := by
  constructor
  · intro hd
    constructor
    · simp [resolveDiagnostics, resolveHrefCore, hd]
    · have ht : toUrlChars (Url.str (mkStr (repairedChars (toUrlChars u))))
          = repairedChars (toUrlChars u) := rfl
      have hi : repairedChars (repairedChars (toUrlChars u)) = repairedChars (toUrlChars u) :=
        repairedChars_idem _
      unfold resolveHref resolveHrefCore
      rw [ht]
      simp only [hi]
  · intro hd
    exact ⟨by simp [resolveDiagnostics, resolveHrefCore, hd], by simp [repairedChars, hd]⟩

/-- Witness for C6: the spec's repeated-slash example. -/
theorem resolveHref_repair_and_diagnostics_witness :
    urlDirty (noProtoOf (toUrlChars (Url.str ("//evil.com\\path")))) = true ∧
    resolveDiagnostics ⟨"/a", "/a"⟩ (Url.str ("//evil.com\\path")) false = 1 ∧
    resolveHref ⟨"/a", "/a"⟩ (Url.str ("//evil.com\\path")) false
      = resolveHref ⟨"/a", "/a"⟩
          (Url.str (mkStr (repairedChars (toUrlChars (Url.str ("//evil.com\\path")))))) false ∧
    resolveHref ⟨"/a", "/a"⟩ (Url.str ("//evil.com\\path")) false
      = ResolveResult.str ("/evil.com/path") := by
  have h := (resolveHref_repair_and_diagnostics ⟨"/a", "/a"⟩
    (Url.str ("//evil.com\\path")) false).1 (by decide)
  exact ⟨by decide, h.1, h.2, by decide⟩

theorem parsePQH_pathname_shape (o s : Chars) (d : List Chars) :
    ∃ t, (parsePQH o s d).pathname = '/' :: t := by
  unfold parsePQH
  exact ⟨_, rfl⟩

theorem parseURL_pathname_shape {i : Chars} {b U : URLRec}
    (hb : ∃ t, b.pathname = '/' :: t) (h : parseURL i b = some U) :
    ∃ t, U.pathname = '/' :: t := by
  simp only [parseURL] at h
  split at h
  · split at h
    · exact absurd h (by simp)
    · rw [Option.some.injEq] at h
      rw [← h]
      exact parsePQH_pathname_shape _ _ _
  · split at h
    · split at h
      · exact absurd h (by simp)
      · rw [Option.some.injEq] at h
        rw [← h]
        exact parsePQH_pathname_shape _ _ _
    · split at h
      · rw [Option.some.injEq] at h
        rw [← h]
        simpa using hb
      · rw [Option.some.injEq] at h
        rw [← h]
        simpa using hb
      · rw [Option.some.injEq] at h
        rw [← h]
        simpa using hb
      · split at h
        · rw [Option.some.injEq] at h
          rw [← h]
          exact parsePQH_pathname_shape _ _ _
        · rw [Option.some.injEq] at h
          rw [← h]
          exact parsePQH_pathname_shape _ _ _

theorem baseOf_pathname_shape (r : NextRouter) (url : Chars) :
    ∃ t, (baseOf r url).pathname = '/' :: t := by
  unfold baseOf
  cases hp : parseURL
      (if url.head? == some '#' then r.asPath.toList else r.pathname.toList) dummyBase with
  | none => exact ⟨[], rfl⟩
  | some b2 =>
    simp only [hp]
    exact parseURL_pathname_shape ⟨[], rfl⟩ hp

theorem normalizeTrailing_shape {p : Chars} (h : ∃ t, p = '/' :: t) :
    ∃ t2, normalizePathTrailingSlash p = '/' :: t2 := by
  obtain ⟨t, ht⟩ := h
  subst ht
  unfold normalizePathTrailingSlash
  by_cases hl : (('/' :: t).getLast? == some '/') = true
  · rw [if_pos hl]
    by_cases hlen : (('/' :: t).length == 1) = true
    · rw [if_pos hlen]; exact ⟨t, rfl⟩
    · rw [if_neg hlen]
      cases t with
      | nil => simp at hlen
      | cons x xs => exact ⟨(x :: xs).dropLast, rfl⟩
  · rw [if_neg hl]; exact ⟨t, rfl⟩

theorem resolvedHrefOf_ne_nil {base f : URLRec} (h : ∃ t, f.pathname = '/' :: t) :
    resolvedHrefOf base f ≠ [] := by
  obtain ⟨t, ht⟩ := h
  unfold resolvedHrefOf
  by_cases ho : (f.origin == base.origin) = true
  · rw [if_pos ho]
    unfold hrefNoOrigin
    rw [ht]
    simp
  · rw [if_neg ho]
    unfold URLRec.href hrefNoOrigin
    rw [ht]
    simp

theorem mkStr_ne_empty {l : Chars} (h : l ≠ []) : mkStr l ≠ "" := by
  intro he
  apply h
  have h2 : (mkStr l).data = ("" : String).data := by rw [he]
  simpa [mkStr] using h2

theorem resolveHref_pair_mem_ne_empty (r : NextRouter) (u : Url) (l : List String)
    (h : resolveHref r u true = ResolveResult.list l) : ∀ x ∈ l, x ≠ "" := by
  unfold resolveHref resolveHrefCore at h
  by_cases hloc : isLocalURL (repairedChars (toUrlChars u)) = true
  · cases hf : finalUrlOf r (repairedChars (toUrlChars u)) with
    | none =>
      simp only [hloc, Bool.not_true, Bool.false_eq_true, if_false, hf, if_true] at h
      have hrep : repairedChars (toUrlChars u) ≠ [] := by
        intro hnil
        have hfe : finalUrlOf r ([] : Chars) = some { baseOf r [] with hash := none } := rfl
        rw [hnil] at hf
        rw [hf] at hfe
        exact Option.noConfusion hfe
      simp only [ResolveResult.list.injEq] at h
      intro x hx
      rw [← h] at hx
      rcases List.mem_singleton.mp hx with hx1
      rw [hx1]
      exact mkStr_ne_empty hrep
    | some U =>
      simp only [hloc, Bool.not_true, Bool.false_eq_true, if_false, hf, if_true] at h
      simp only [ResolveResult.list.injEq] at h
      have hshape : ∃ t, U.pathname = '/' :: t :=
        parseURL_pathname_shape (baseOf_pathname_shape r _) hf
      have hshape2 : ∃ t, ({ U with pathname := normalizePathTrailingSlash U.pathname }
          : URLRec).pathname = '/' :: t := by
        simpa using normalizeTrailing_shape hshape
      have hne1 : resolvedHrefOf (baseOf r (repairedChars (toUrlChars u)))
          { U with pathname := normalizePathTrailingSlash U.pathname } ≠ [] :=
        resolvedHrefOf_ne_nil hshape2
      intro x hx
      rw [← h] at hx
      rcases List.mem_cons.mp hx with hx1 | hx2
      · rw [hx1]
        exact mkStr_ne_empty hne1
      · rcases List.mem_singleton.mp hx2 with hx3
        rw [hx3]
        by_cases hie : (interpolatedAsOf
            { U with pathname := normalizePathTrailingSlash U.pathname } true).isEmpty = true
        · rw [if_pos hie]
          exact mkStr_ne_empty hne1
        · rw [if_neg hie]
          apply mkStr_ne_empty
          intro hnil
          rw [hnil] at hie
          exact hie rfl
  · simp only [Bool.eq_false_iff.mpr hloc, Bool.not_false, if_true] at h
    have hrep : repairedChars (toUrlChars u) ≠ [] := by
      intro hnil
      rw [hnil] at hloc
      exact hloc (by decide)
    simp only [ResolveResult.list.injEq] at h
    intro x hx
    rw [← h] at hx
    rcases List.mem_singleton.mp hx with hx1
    rw [hx1]
    exact mkStr_ne_empty hrep

theorem resolveHref_as_fallback (r : NextRouter) (u : Url) (U : URLRec)
    (hloc : isLocalURL (repairedChars (toUrlChars u)) = true)
    (hf : finalUrlOf r (repairedChars (toUrlChars u)) = some U)
    (hI : interpolatedAsOf { U with pathname := normalizePathTrailingSlash U.pathname }
      true = []) :
    resolveHref r u true = ResolveResult.list
      [mkStr (resolvedHrefOf (baseOf r (repairedChars (toUrlChars u)))
        { U with pathname := normalizePathTrailingSlash U.pathname }),
       mkStr (resolvedHrefOf (baseOf r (repairedChars (toUrlChars u)))
        { U with pathname := normalizePathTrailingSlash U.pathname })] := by
  unfold resolveHref resolveHrefCore
  simp [hloc, hf, hI]

/-- C7: whenever the call returns a pair, every component — in particular the
second, `as` — is a non-empty string; and whenever the `interpolatedAs`
accumulator stays empty (no interpolation occurred or it found no match),
the `as` element defaults to the canonical resolved href, the first
element. -/
theorem resolveHref_pair_as_nonempty_defaults :
    (∀ (r : NextRouter) (u : Url) (l : List String),
      resolveHref r u true = ResolveResult.list l → ∀ x ∈ l, x ≠ "") ∧
    (∀ (r : NextRouter) (u : Url) (U : URLRec),
      isLocalURL (repairedChars (toUrlChars u)) = true →
      finalUrlOf r (repairedChars (toUrlChars u)) = some U →
      interpolatedAsOf { U with pathname := normalizePathTrailingSlash U.pathname }
        true = [] →
      resolveHref r u true = ResolveResult.list
        [mkStr (resolvedHrefOf (baseOf r (repairedChars (toUrlChars u)))
          { U with pathname := normalizePathTrailingSlash U.pathname }),
         mkStr (resolvedHrefOf (baseOf r (repairedChars (toUrlChars u)))
          { U with pathname := normalizePathTrailingSlash U.pathname })]) :=
  ⟨resolveHref_pair_mem_ne_empty, resolveHref_as_fallback⟩

/-- Witness for C7: a dynamic route whose query has no matching key — the
pair is returned with a non-empty `as` equal to the href. -/
theorem resolveHref_pair_as_nonempty_defaults_witness :
    resolveHref ⟨"/a", "/a"⟩ (Url.str ("/posts/[id]?other=1")) true
      = ResolveResult.list ["/posts/[id]?other=1", "/posts/[id]?other=1"] ∧
    (∀ x ∈ ["/posts/[id]?other=1", "/posts/[id]?other=1"], x ≠ "") ∧
    interpolatedAsOf ⟨("http://n").toList, ("/posts/[id]").toList,
      some (("other=1").toList), none⟩ true = [] := by
  refine ⟨by decide, ?_, by decide⟩
  exact resolveHref_pair_as_nonempty_defaults.1 ⟨"/a", "/a"⟩
    (Url.str ("/posts/[id]?other=1")) ["/posts/[id]?other=1", "/posts/[id]?other=1"]
    (by decide)

/-- C10: when interpolation succeeds, the produced `as` string is serialized
from the interpolated pathname together with the resolved URL's hash and the
non-consumed query parameters — in particular the hash fragment is
preserved. -/
theorem resolveHref_interpolation_preserves_hash (r : NextRouter) (u : Url) (U : URLRec)
    (res : Chars) (ps : List Chars)
    (hloc : isLocalURL (repairedChars (toUrlChars u)) = true)
    (hf : finalUrlOf r (repairedChars (toUrlChars u)) = some U)
    (hdyn : isDynamicRoute (normalizePathTrailingSlash U.pathname) = true)
    (hint : interpolateAs (normalizePathTrailingSlash U.pathname)
        (searchParamsToUrlQuery U.search) = (some res, ps)) :
    resolveHref r u true = ResolveResult.list
      [mkStr (resolvedHrefOf (baseOf r (repairedChars (toUrlChars u)))
        { U with pathname := normalizePathTrailingSlash U.pathname }),
       mkStr (formatWithValidation res (omitKeys (searchParamsToUrlQuery U.search) ps)
         (hashGetter U))] := by
  have hgh : hashGetter ({ U with pathname := normalizePathTrailingSlash U.pathname }
      : URLRec) = hashGetter U := rfl
  have hIA : interpolatedAsOf { U with pathname := normalizePathTrailingSlash U.pathname }
      true = formatWithValidation res (omitKeys (searchParamsToUrlQuery U.search) ps)
        (hashGetter U) := by
    unfold interpolatedAsOf
    rw [if_pos (by simp [hdyn])]
    simp only [hint, hgh]
  have hres : res ≠ [] := interpolateAs_fst_some_ne_nil (by rw [hint])
  have hne : formatWithValidation res (omitKeys (searchParamsToUrlQuery U.search) ps)
      (hashGetter U) ≠ [] := by
    unfold formatWithValidation
    cases res with
    | nil => exact absurd rfl hres
    | cons a t => simp
  have hie : (formatWithValidation res (omitKeys (searchParamsToUrlQuery U.search) ps)
      (hashGetter U)).isEmpty = false := by
    cases hx : formatWithValidation res (omitKeys (searchParamsToUrlQuery U.search) ps)
        (hashGetter U) with
    | nil => exact absurd hx hne
    | cons a t => rfl
  unfold resolveHref resolveHrefCore
  simp [hloc, hf, hIA, hie]

/-- Witness for C10: the C2 example extended with a `#frag` fragment — the
fragment survives into the interpolated `as` string. -/
theorem resolveHref_interpolation_preserves_hash_witness :
    isLocalURL (repairedChars (toUrlChars (Url.str ("/posts/[id]?id=5&sort=asc#frag"))))
      = true ∧
    finalUrlOf ⟨"/posts/[id]", "/posts/5"⟩
        (repairedChars (toUrlChars (Url.str ("/posts/[id]?id=5&sort=asc#frag"))))
      = some ⟨("http://n").toList, ("/posts/[id]").toList,
          some (("id=5&sort=asc").toList), some (("frag").toList)⟩ ∧
    resolveHref ⟨"/posts/[id]", "/posts/5"⟩ (Url.str ("/posts/[id]?id=5&sort=asc#frag")) true
      = ResolveResult.list ["/posts/[id]?id=5&sort=asc#frag", "/posts/5?sort=asc#frag"] := by
  refine ⟨by decide, by decide, ?_⟩
  have h := resolveHref_interpolation_preserves_hash ⟨"/posts/[id]", "/posts/5"⟩
    (Url.str ("/posts/[id]?id=5&sort=asc#frag"))
    ⟨("http://n").toList, ("/posts/[id]").toList,
      some (("id=5&sort=asc").toList), some (("frag").toList)⟩
    (("/posts/5").toList) [("id").toList]
    (by decide) (by decide) (by decide) (by decide)
  rw [h]
  decide

/-! ## Helper lemmas for the canonical fixed-point property -/

theorem takeWhile_all {x : Chars} {p : Char → Bool} (h : ∀ c ∈ x, p c = true) :
    x.takeWhile p = x := by
  have h2 := @List.takeWhile_append_of_pos Char p x [] h
  simpa using h2

theorem dropWhile_all {x : Chars} {p : Char → Bool} (h : ∀ c ∈ x, p c = true) :
    x.dropWhile p = [] := by
  have h2 := @List.dropWhile_append_of_pos Char p x [] h
  simpa using h2

theorem mapSlash_eq_self {l : Chars} (h : '\\' ∉ l) : mapSlash l = l := by
  induction l with
  | nil => rfl
  | cons c t ih =>
    unfold mapSlash at *
    simp only [List.map_cons]
    rw [if_neg (fun hce => h (by rw [hce]; exact List.mem_cons_self _ _))]
    rw [ih (fun hm => h (List.mem_cons_of_mem _ hm))]

theorem twoSlashes_eq_false_of_clean {t : Chars} (hd : urlDirty ('/' :: t) = false) :
    twoSlashes ('/' :: t) = false := by
  cases t with
  | nil => rfl
  | cons b r =>
    by_cases hb : isSlashC b = true
    · exfalso
      rcases (by simpa [isSlashC] using hb : b = '/' ∨ b = '\\') with hb1 | hb1
      · subst hb1
        have hdd : urlDirty ('/' :: '/' :: r) = true := by
          unfold urlDirty pathPartL
          rw [List.takeWhile_cons_of_pos (by decide), List.takeWhile_cons_of_pos (by decide)]
          unfold isDirtyL
          rw [Bool.or_eq_true]
          left
          rw [hasDoubleSlash_cons2, Bool.or_eq_true]
          left
          decide
        rw [hd] at hdd
        exact Bool.false_ne_true hdd
      · subst hb1
        have hdd : urlDirty ('/' :: '\\' :: r) = true := by
          unfold urlDirty pathPartL
          rw [List.takeWhile_cons_of_pos (by decide), List.takeWhile_cons_of_pos (by decide)]
          unfold isDirtyL
          rw [Bool.or_eq_true]
          right
          simp
        rw [hd] at hdd
        exact Bool.false_ne_true hdd
    · have hb2 : isSlashC b = false := Bool.eq_false_iff.mpr hb
      rw [show twoSlashes ('/' :: b :: r) = (isSlashC '/' && isSlashC b) from rfl, hb2]
      simp

theorem parseURL_slash (x : Chars) (B : URLRec) (htwo : twoSlashes ('/' :: x) = false) :
    parseURL ('/' :: x) B = some (parsePQH B.origin ('/' :: x) []) := by
  have h1 : protoSplit ('/' :: x) = none := by
    have hA : isAlphaChar '/' = false := by decide
    unfold protoSplit
    rw [List.takeWhile_cons, hA]
    simp
  unfold parseURL
  simp only [h1]
  rw [if_neg (by simp [htwo])]
  rfl

theorem parsePQH_canonical (B U : URLRec) (pt : Chars)
    (hP : U.pathname = '/' :: pt)
    (hPq : '?' ∉ U.pathname) (hPh : '#' ∉ U.pathname) (hPb : '\\' ∉ U.pathname)
    (hSh : ∀ q, U.search = some q → '#' ∉ q)
    (hren : renderPath (normSegsAux [] (pt.splitOn '/')) = U.pathname) :
    parsePQH B.origin (hrefNoOrigin U) []
      = { origin := B.origin, pathname := U.pathname,
          search := U.search, hash := U.hash } := by
  have hallPH : ∀ c ∈ U.pathname, (fun c => decide (c ≠ '#')) c = true := by
    intro c hcm
    simp only [decide_eq_true_eq]
    intro he; rw [he] at hcm; exact hPh hcm
  have hallPQ : ∀ c ∈ U.pathname, (fun c => decide (c ≠ '?')) c = true := by
    intro c hcm
    simp only [decide_eq_true_eq]
    intro he; rw [he] at hcm; exact hPq hcm
  have hren2 : renderPath (normSegsAux [] (pt.splitOn '/')) = '/' :: pt := by
    rw [hren]; exact hP
  rcases hs : U.search with _ | q <;> rcases hh : U.hash with _ | hfr
  · -- no query, no hash
    have hsh : hrefNoOrigin U = U.pathname := by
      unfold hrefNoOrigin searchHref hashHref
      rw [hs, hh]; simp
    rw [hsh]
    unfold parsePQH
    simp only [takeWhile_all hallPH, dropWhile_all hallPH,
               takeWhile_all hallPQ, dropWhile_all hallPQ,
               mapSlash_eq_self hPb]
    simp only [hP]
    rw [hren2]
  · -- no query, hash present
    have hh1 : ('#' :: hfr).takeWhile (fun c => decide (c ≠ '#')) = [] := by
      rw [List.takeWhile_cons]; simp
    have hh2 : ('#' :: hfr).dropWhile (fun c => decide (c ≠ '#')) = '#' :: hfr := by
      rw [List.dropWhile_cons]; simp
    have hsh : hrefNoOrigin U = U.pathname ++ '#' :: hfr := by
      unfold hrefNoOrigin searchHref hashHref
      rw [hs, hh]; simp
    rw [hsh]
    unfold parsePQH
    simp only [List.takeWhile_append_of_pos hallPH, hh1, List.append_nil,
               List.dropWhile_append_of_pos hallPH, hh2,
               takeWhile_all hallPQ, dropWhile_all hallPQ,
               mapSlash_eq_self hPb]
    simp only [hP]
    rw [hren2]
  · -- query present, no hash
    have hq1 : ∀ c ∈ ('?' :: q), (fun c => decide (c ≠ '#')) c = true := by
      intro c hcm
      simp only [decide_eq_true_eq]
      intro he; rw [he] at hcm
      rcases List.mem_cons.mp hcm with h1 | h1
      · exact absurd h1 (by decide)
      · exact hSh q hs h1
    have hq2 : ('?' :: q).takeWhile (fun c => decide (c ≠ '?')) = [] := by
      rw [List.takeWhile_cons]; simp
    have hq3 : ('?' :: q).dropWhile (fun c => decide (c ≠ '?')) = '?' :: q := by
      rw [List.dropWhile_cons]; simp
    have hsh : hrefNoOrigin U = U.pathname ++ '?' :: q := by
      unfold hrefNoOrigin searchHref hashHref
      rw [hs, hh]; simp
    rw [hsh]
    unfold parsePQH
    simp only [List.takeWhile_append_of_pos hallPH, takeWhile_all hq1,
               List.dropWhile_append_of_pos hallPH, dropWhile_all hq1,
               List.takeWhile_append_of_pos hallPQ, hq2, List.append_nil,
               List.dropWhile_append_of_pos hallPQ, hq3,
               mapSlash_eq_self hPb]
    simp only [hP]
    rw [hren2]
  · -- query and hash present
    have hq1 : ∀ c ∈ ('?' :: q), (fun c => decide (c ≠ '#')) c = true := by
      intro c hcm
      simp only [decide_eq_true_eq]
      intro he; rw [he] at hcm
      rcases List.mem_cons.mp hcm with h1 | h1
      · exact absurd h1 (by decide)
      · exact hSh q hs h1
    have hq2 : ('?' :: q).takeWhile (fun c => decide (c ≠ '?')) = [] := by
      rw [List.takeWhile_cons]; simp
    have hq3 : ('?' :: q).dropWhile (fun c => decide (c ≠ '?')) = '?' :: q := by
      rw [List.dropWhile_cons]; simp
    have hall1 : ∀ c ∈ U.pathname ++ '?' :: q, (fun c => decide (c ≠ '#')) c = true := by
      intro c hcm
      rcases List.mem_append.mp hcm with h1 | h1
      · exact hallPH c h1
      · exact hq1 c h1
    have hh1 : ('#' :: hfr).takeWhile (fun c => decide (c ≠ '#')) = [] := by
      rw [List.takeWhile_cons]; simp
    have hh2 : ('#' :: hfr).dropWhile (fun c => decide (c ≠ '#')) = '#' :: hfr := by
      rw [List.dropWhile_cons]; simp
    have hsh : hrefNoOrigin U = (U.pathname ++ '?' :: q) ++ '#' :: hfr := by
      unfold hrefNoOrigin searchHref hashHref
      rw [hs, hh]
    rw [hsh]
    unfold parsePQH
    simp only [List.takeWhile_append_of_pos hall1, hh1, List.append_nil,
               List.dropWhile_append_of_pos hall1, hh2,
               List.takeWhile_append_of_pos hallPQ, hq2,
               List.dropWhile_append_of_pos hallPQ, hq3,
               mapSlash_eq_self hPb]
    simp only [hP]
    rw [hren2]

/-- C9 counterexample: the claim quantifies over every router state, but a
router state whose path carries a repeated slash makes `resolveHref` return
`/a//c` for the relative target `c`, and resolving that previously returned
string again triggers the repeated-slash repair and yields the different
string `/a/c`. -/
theorem resolveHref_not_idempotent_counterexample :
    resolveHref ⟨"/a//b", "/a//b"⟩ (Url.str ("c")) false = ResolveResult.str ("/a//c") ∧
    resolveHref ⟨"/a//b", "/a//b"⟩ (Url.str ("/a//c")) false = ResolveResult.str ("/a/c") ∧
    ("/a/c" : String) ≠ "/a//c" :=
  ⟨by decide, by decide, by decide⟩

/-- C9 (amended): `resolveHref` with `resolveAs` false is a fixed point on
already-canonical local hrefs: for every router state, a string serialized
from canonical components (path-absolute, reparse-stable, trailing-slash
normalized, separator-clean — `canonicalURL`) resolves to itself with no
further transformation. -/
theorem resolveHref_idempotent_on_canonical (r : NextRouter) (U : URLRec)
    (hc : canonicalURL U = true) :
    resolveHref r (Url.str (mkStr (hrefNoOrigin U))) false
      = ResolveResult.str (mkStr (hrefNoOrigin U)) := by
  simp only [canonicalURL, Bool.and_eq_true] at hc
  obtain ⟨⟨⟨⟨⟨⟨h1, h2⟩, h3⟩, h4⟩, h5⟩, h6⟩, h7⟩ := hc
  have h1a : U.pathname.head? = some '/' := by simpa using h1
  obtain ⟨pt, hP⟩ : ∃ pt, U.pathname = '/' :: pt := by
    cases hp : U.pathname with
    | nil => rw [hp] at h1a; exact absurd h1a (by simp)
    | cons c t =>
      rw [hp] at h1a
      simp only [List.head?_cons, Option.some.injEq] at h1a
      exact ⟨t, by rw [h1a]⟩
  have h2a : renderPath (normSegsAux [] ((U.pathname.drop 1).splitOn '/')) = U.pathname := by
    simpa using h2
  have hren : renderPath (normSegsAux [] (pt.splitOn '/')) = U.pathname := by
    have hdrop : U.pathname.drop 1 = pt := by rw [hP]; rfl
    rw [← hdrop]; exact h2a
  have h3a : normalizePathTrailingSlash U.pathname = U.pathname := by simpa using h3
  have h4a : '#' ∉ U.pathname := by simpa using h4
  have h5a : '?' ∉ U.pathname := by simpa using h5
  have h7a : urlDirty (hrefNoOrigin U) = false := by simpa using h7
  have hSh : ∀ q, U.search = some q → '#' ∉ q := by
    intro q hq
    rw [hq] at h6
    simpa using h6
  have hPb : '\\' ∉ U.pathname := by
    intro hb
    have hq2 : ∀ c ∈ U.pathname, (fun c => decide (c ≠ '?')) c = true := by
      intro c hcm; simp only [decide_eq_true_eq]
      intro he; rw [he] at hcm; exact h5a hcm
    have hsplit : pathPartL (hrefNoOrigin U)
        = U.pathname ++ (searchHref U ++ hashHref U).takeWhile (fun c => decide (c ≠ '?')) := by
      unfold hrefNoOrigin pathPartL
      rw [List.append_assoc, List.takeWhile_append_of_pos hq2]
    have hcontains : (pathPartL (hrefNoOrigin U)).contains '\\' = true := by
      rw [hsplit]
      simp [hb]
    unfold urlDirty isDirtyL at h7a
    rw [hcontains] at h7a
    simp at h7a
  have hD : protoSplit (hrefNoOrigin U) = none := protoSplit_eq_none_of_clean h7a
  have hrep : repairedChars (hrefNoOrigin U) = hrefNoOrigin U := by
    unfold repairedChars
    rw [noProtoOf_eq_of_none hD, h7a]
    simp
  have hsc : hrefNoOrigin U = '/' :: (pt ++ searchHref U ++ hashHref U) := by
    unfold hrefNoOrigin
    rw [hP]
    simp
  have hloc : isLocalURL (hrefNoOrigin U) = true := by
    rw [hsc]
    unfold isLocalURL
    have hA : isAlphaChar '/' = false := by decide
    rw [List.takeWhile_cons, hA]
    simp
  have htwo : twoSlashes (hrefNoOrigin U) = false := by
    rw [hsc]
    apply twoSlashes_eq_false_of_clean
    rw [← hsc]
    exact h7a
  have hparse : parseURL (hrefNoOrigin U) (baseOf r (hrefNoOrigin U))
      = some { origin := (baseOf r (hrefNoOrigin U)).origin, pathname := U.pathname,
               search := U.search, hash := U.hash } := by
    rw [hsc, parseURL_slash _ _ (by rw [← hsc]; exact htwo)]
    rw [← hsc]
    rw [parsePQH_canonical (baseOf r (hrefNoOrigin U)) U pt hP h5a h4a hPb hSh hren]
  have hres : resolvedHrefOf (baseOf r (hrefNoOrigin U))
      { origin := (baseOf r (hrefNoOrigin U)).origin, pathname := U.pathname,
        search := U.search, hash := U.hash } = hrefNoOrigin U := by
    unfold resolvedHrefOf
    rw [if_pos (by simp)]
    rfl
  have htU : toUrlChars (Url.str (mkStr (hrefNoOrigin U))) = hrefNoOrigin U := rfl
  unfold resolveHref resolveHrefCore
  simp only [htU, hrep, hloc, Bool.not_true, Bool.false_eq_true, if_false]
  simp only [finalUrlOf, hparse, h3a, hres]

/-- Witness for the amended C9: the canonical href `/a/c?x=1#s` (with query
and fragment) is a fixed point of resolution. -/
theorem resolveHref_idempotent_on_canonical_witness :
    canonicalURL ⟨("http://n").toList, ("/a/c").toList, some (("x=1").toList),
      some (("s").toList)⟩ = true ∧
    resolveHref ⟨"/p", "/p"⟩ (Url.str (mkStr (hrefNoOrigin ⟨("http://n").toList,
        ("/a/c").toList, some (("x=1").toList), some (("s").toList)⟩))) false
      = ResolveResult.str (mkStr (hrefNoOrigin ⟨("http://n").toList, ("/a/c").toList,
          some (("x=1").toList), some (("s").toList)⟩)) ∧
    mkStr (hrefNoOrigin ⟨("http://n").toList, ("/a/c").toList, some (("x=1").toList),
      some (("s").toList)⟩) = "/a/c?x=1#s" := by
  refine ⟨by decide, ?_, by decide⟩
  exact resolveHref_idempotent_on_canonical ⟨"/p", "/p"⟩ _ (by decide)
